import Mathlib

/-!
Verification of the leaderboard aggregation and ranking engine of the
big-yek-monthly-cup backend (`src/util/leaderboard.ts`).

The embedding models the Prisma rows as Lean structures (JS numbers that
hold integers become `Int`), the pure scoring functions directly, and the
stateful `updateLeaderboard` as a function from a `Database` value to a
new `Database` paired with an optional thrown error message (a thrown
error aborts before any write, so the pre-state is returned unchanged).
-/

/-- Row of the `QualifierResult` table: a raw per-round result. -/
structure QualifierResult where
  playerId : String
  position : Int
  points : Int
  qualifierId : Int
  server : Int
deriving Repr, DecidableEq

/-- Row of the `LeaderboardEntry` table. `position` is the assigned rank. -/
structure LeaderboardEntry where
  playerId : String
  points : Int
  qualified : Bool
  leaderboardId : Int
  position : Int
deriving Repr, DecidableEq

/-- `POINT_LIMIT_SERVER_ONE` from leaderboard.ts. -/
def POINT_LIMIT_SERVER_ONE : Int := 6969

/-- `POINT_LIMIT_SERVER_TWO` from leaderboard.ts. -/
def POINT_LIMIT_SERVER_TWO : Int := 4500

/-- `getPointsByResult` from leaderboard.ts, branch for branch. -/
def getPointsByResult (result : QualifierResult) : Int :=
  if result.server = 1 then
    if result.position ≥ 1 ∧ result.position ≤ 3 then 50000
    else if result.position = 4 then 15000
    else if result.position = 5 then 10000
    else if result.points ≥ POINT_LIMIT_SERVER_ONE then 7500
    else result.points
  else if result.server = 2 then
    if result.position = 1 then 6500
    else if result.position = 2 then 6000
    else if result.position = 3 then 5500
    else if result.points ≥ POINT_LIMIT_SERVER_TWO then 5000
    else result.points
  else 0

/-- `isQualified` from leaderboard.ts. -/
def isQualified (result : QualifierResult) : Bool :=
  result.position ≥ 1 && result.position ≤ 3 && result.server = 1

/-- Spec-side award table, written from the spec sentences
"Variant A: position 1–3 → 50000; position 4 → 15000; position 5 → 10000;
else if raw points ≥ 6969 → 7500; else → raw points unchanged. Variant B:
position 1 → 6500; position 2 → 6000; position 3 → 5500; else if raw
points ≥ 4500 → 5000; else → raw points unchanged. Any other variant tag
→ 0 points." Used to compare the code's scoring against the spec. -/
def specAwardTable (result : QualifierResult) : Int :=
  if result.server = 1 then
    if 1 ≤ result.position ∧ result.position ≤ 3 then 50000
    else if result.position = 4 then 15000
    else if result.position = 5 then 10000
    else if result.points ≥ 6969 then 7500
    else result.points
  else if result.server = 2 then
    if result.position = 1 then 6500
    else if result.position = 2 then 6000
    else if result.position = 3 then 5500
    else if result.points ≥ 4500 then 5000
    else result.points
  else 0

/-- The points-based tier a result falls to when no fixed-bonus branch is
taken (spec: "falls through to the points-based tier"). -/
def pointsTier (result : QualifierResult) : Int :=
  if result.server = 1 then
    if result.points ≥ 6969 then 7500 else result.points
  else if result.server = 2 then
    if result.points ≥ 4500 then 5000 else result.points
  else 0

/-- The fresh accumulator entry created for a player's first result
(`map[id] ?? { qualified: false, points: 0, ..., position: 0 }`). -/
def defaultEntry (lbId : Int) (pid : String) : LeaderboardEntry :=
  { playerId := pid, points := 0, qualified := false,
    leaderboardId := lbId, position := 0 }

/-- Body of the accumulation loop of `updateLeaderboard`:
`entry.points += points; if (qualified) entry.qualified = qualified`. -/
def applyResult (entry : LeaderboardEntry) (r : QualifierResult) : LeaderboardEntry :=
  { entry with
    points := entry.points + getPointsByResult r,
    qualified := if isQualified r then isQualified r else entry.qualified }

/-- One upsert step on the accumulator map. The JS accumulator is a
`Record<string, LeaderboardEntry>` whose `Object.values` enumeration is
first-insertion order for the login-string keys; it is modelled as a list
keyed by `playerId`, new players appended at the end. -/
def upsertResult (lbId : Int) (r : QualifierResult) :
    List LeaderboardEntry → List LeaderboardEntry
  | [] => [applyResult (defaultEntry lbId r.playerId) r]
  | e :: es =>
    if e.playerId == r.playerId then applyResult e r :: es
    else e :: upsertResult lbId r es

/-- The accumulation loop `for (const result of allResultsOfCup) ...` of
`updateLeaderboard`: group by player, sum awarded points, OR the
qualified flag. -/
def aggregateResults (lbId : Int) (rs : List QualifierResult) : List LeaderboardEntry :=
  rs.foldl (fun m r => upsertResult lbId r m) []

/-- All raw results of one player, in list order. -/
def playerResults (pid : String) (rs : List QualifierResult) : List QualifierResult :=
  rs.filter (fun r => r.playerId == pid)

/-- Total awarded points of one player over a raw-result list. -/
def playerPoints (pid : String) (rs : List QualifierResult) : Int :=
  ((playerResults pid rs).map getPointsByResult).sum

/-- Whether any of one player's raw results is qualifying. -/
def playerQualified (pid : String) (rs : List QualifierResult) : Bool :=
  (playerResults pid rs).any isQualified

/-- Stable insertion into a points-descending sorted list: the inserted
entry goes before the first element it strictly out-points, hence after
all earlier-arrived elements with the same points. -/
def insertDesc (e : LeaderboardEntry) : List LeaderboardEntry → List LeaderboardEntry
  | [] => [e]
  | x :: xs => if e.points ≥ x.points then e :: x :: xs else x :: insertDesc e xs

/-- `leaderboard.sort((a, b) => b.points - a.points)`: a stable sort by
points descending (JS `Array.prototype.sort` is stable). -/
def sortDesc : List LeaderboardEntry → List LeaderboardEntry
  | [] => []
  | e :: es => insertDesc e (sortDesc es)

/-- The ranking loop of `updateLeaderboard`, with the mutable state
`currentRank` / `previousAmount` / `rankCount` passed explicitly; each
entry leaves the loop with `position` set to the rank it was assigned. -/
def assignRanks (currentRank : Int) (previousAmount : Option Int) (rankCount : Int) :
    List LeaderboardEntry → List LeaderboardEntry
  | [] => []
  | e :: es =>
    if e.qualified then
      { e with position := currentRank } ::
        assignRanks currentRank (some e.points) (rankCount + 1) es
    else if previousAmount ≠ some e.points then
      { e with position := currentRank + rankCount } ::
        assignRanks (currentRank + rankCount) (some e.points) 1 es
    else
      { e with position := currentRank } ::
        assignRanks currentRank (some e.points) (rankCount + 1) es

/-- Spec-side ranking pass, written from the spec sentences: "Maintain
currentRank (starts at 1), rankCount, previousPoints (undefined at
start). If the entry is qualified: assign it rank = currentRank;
increment rankCount; do NOT compare against previousPoints. Else if the
entry's points differ from previousPoints: advance currentRank by
rankCount, reset rankCount to 1, assign this entry rank = new
currentRank. Else: assign rank = currentRank, increment rankCount.
Update previousPoints to this entry's points after processing."
`rankCount` starts at 0: no entry has yet been counted into the block
that will advance `currentRank`. -/
def specRankPassGo (currentRank rankCount : Int) (previousPoints : Option Int) :
    List LeaderboardEntry → List LeaderboardEntry
  | [] => []
  | e :: es =>
    if e.qualified then
      { e with position := currentRank } ::
        specRankPassGo currentRank (rankCount + 1) (some e.points) es
    else if some e.points ≠ previousPoints then
      { e with position := currentRank + rankCount } ::
        specRankPassGo (currentRank + rankCount) 1 (some e.points) es
    else
      { e with position := currentRank } ::
        specRankPassGo currentRank (rankCount + 1) (some e.points) es

/-- Entry point of the spec-side ranking pass: currentRank starts at 1,
previousPoints starts undefined, rankCount starts at 0. -/
def specRankPass (l : List LeaderboardEntry) : List LeaderboardEntry :=
  specRankPassGo 1 0 none l

/-- The pure computation inside `updateLeaderboard`: aggregate, sort by
points descending, assign ranks. Its output is the leaderboard in
points-descending order. -/
def computeLeaderboard (lbId : Int) (rs : List QualifierResult) : List LeaderboardEntry :=
  assignRanks 1 none 0 (sortDesc (aggregateResults lbId rs))

/-- The entries actually passed to `createMany`: `Object.values(map)` in
map-insertion order, where each entry object was mutated in place with
the rank computed over the sorted view. Player ids are unique in the
accumulator, so each entry is looked up in the ranked list by player. -/
def storedEntries (lbId : Int) (rs : List QualifierResult) : List LeaderboardEntry :=
  let ranked := computeLeaderboard lbId rs
  (aggregateResults lbId rs).map (fun e =>
    match ranked.find? (fun x => x.playerId == e.playerId) with
    | some x => x
    | none => e)

/-- Row of the `Leaderboard` table. -/
structure Leaderboard where
  id : Int
  cupId : Int
deriving Repr, DecidableEq

/-- Row of the `Cup` table, with its 0-or-1 leaderboard included, as
fetched by `findUnique({ include: { leaderboard: true } })`. Fields the
aggregator never touches (year, month, name, flags) are omitted. -/
structure Cup where
  id : Int
  leaderboard : Option Leaderboard
deriving Repr, DecidableEq

/-- Row of the `Qualifier` table (round of a cup). -/
structure Qualifier where
  id : Int
  cupId : Int
deriving Repr, DecidableEq

/-- The relational store, as far as `updateLeaderboard` reads/writes it. -/
structure Database where
  cups : List Cup
  qualifiers : List Qualifier
  qualifierResults : List QualifierResult
  leaderboardEntries : List LeaderboardEntry
deriving Repr, DecidableEq

/-- `qualifierResult.findMany({ where: { qualifier: { cupId } } })`:
all raw results whose round belongs to the cup (inner join). -/
def resultsOfCup (db : Database) (cupId : Int) : List QualifierResult :=
  db.qualifierResults.filter (fun r =>
    (db.qualifiers.find? (fun q => q.id == r.qualifierId)).any (fun q => q.cupId == cupId))

/-- `updateLeaderboard` from leaderboard.ts as a state transformer. A
thrown error is the `some`-message second component; both throws happen
before any write, so the pre-state is returned unchanged there. On
success: delete every entry of the cup's leaderboard, then insert the
recomputed entries. -/
def updateLeaderboard (cupId : Int) (db : Database) : Database × Option String :=
  match db.cups.find? (fun c => c.id == cupId) with
  | none => (db, some ("No Cup with id " ++ toString cupId ++ "."))
  | some cup =>
    match cup.leaderboard with
    | none => (db, some "Cup has no leaderboard! YEK?")
    | some lb =>
      let allResultsOfCup := resultsOfCup db cup.id
      let afterDelete : Database :=
        { db with leaderboardEntries :=
            db.leaderboardEntries.filter (fun e => !(e.leaderboardId == lb.id)) }
      ({ afterDelete with leaderboardEntries :=
          afterDelete.leaderboardEntries ++ storedEntries lb.id allResultsOfCup }, none)

/-- The player ids of an entry list, in order. -/
def entryKeys (m : List LeaderboardEntry) : List String :=
  m.map (fun e => e.playerId)

/-- The accumulator invariant: an entry carries its player's summed
points and ORed qualified flag, the cup's leaderboard id, and rank 0. -/
def canonicalEntry (lbId : Int) (rs : List QualifierResult) (e : LeaderboardEntry) : Prop :=
  e.points = playerPoints e.playerId rs ∧
    e.qualified = playerQualified e.playerId rs ∧
    e.leaderboardId = lbId ∧ e.position = 0

/-- The points-descending order on entries. -/
def PointsDesc (a b : LeaderboardEntry) : Prop := b.points ≤ a.points

/-- Everything of an entry except its rank. -/
def entryCore (e : LeaderboardEntry) : String × Int × Bool × Int :=
  (e.playerId, e.points, e.qualified, e.leaderboardId)

/-- One step of the ranking loop on the state
(currentRank, previousAmount, rankCount) alone. -/
def rankStep : Int × Option Int × Int → LeaderboardEntry → Int × Option Int × Int
  | (cr, pa, rc), e =>
    if e.qualified then (cr, some e.points, rc + 1)
    else if pa ≠ some e.points then (cr + rc, some e.points, 1)
    else (cr, some e.points, rc + 1)

/-- The `previousAmount` value reached after processing `xs`, starting
from `pa`: the points of the last processed entry, else the start value. -/
def prevAfter (pa : Option Int) (xs : List LeaderboardEntry) : Option Int :=
  match xs.getLast? with
  | none => pa
  | some x => some x.points

/-- Raw results exhibiting a non-qualified player who out-points a
qualified one: "a" totals 60000 (four position-4 results), "b" totals
55000, "c" totals 50000 with a qualifying position-1 result. -/
def cexResults : List QualifierResult :=
  [⟨"a", 4, 0, 1, 1⟩, ⟨"a", 4, 0, 2, 1⟩, ⟨"a", 4, 0, 3, 1⟩, ⟨"a", 4, 0, 4, 1⟩,
   ⟨"b", 4, 0, 1, 1⟩, ⟨"b", 4, 0, 2, 1⟩, ⟨"b", 4, 0, 3, 1⟩, ⟨"b", 5, 0, 4, 1⟩,
   ⟨"c", 1, 0, 1, 1⟩]

example :
    (computeLeaderboard 7 [⟨"P1", 1, 0, 1, 1⟩, ⟨"P2", 4, 0, 1, 1⟩, ⟨"P3", 10, 7200, 1, 1⟩]).map
        (fun e => (e.playerId, e.points, e.qualified, e.position)) =
      [("P1", 50000, true, 1), ("P2", 15000, false, 2), ("P3", 7500, false, 3)] := by
  decide

example :
    (computeLeaderboard 7 [⟨"P1", 9, 7000, 1, 1⟩, ⟨"P2", 8, 7001, 1, 1⟩, ⟨"P3", 10, 100, 1, 1⟩]).map
        (fun e => (e.playerId, e.points, e.position)) =
      [("P1", 7500, 1), ("P2", 7500, 1), ("P3", 100, 3)] := by
  decide

theorem applyResult_playerId (e : LeaderboardEntry) (r : QualifierResult) :
    (applyResult e r).playerId = e.playerId := rfl

theorem upsertResult_keys_mem (lbId : Int) (r : QualifierResult)
    (m : List LeaderboardEntry) (pid : String) :
    pid ∈ entryKeys (upsertResult lbId r m) ↔ pid ∈ entryKeys m ∨ pid = r.playerId := by
  induction m with
  | nil =>
    show pid ∈ entryKeys [applyResult (defaultEntry lbId r.playerId) r] ↔ _
    simp [entryKeys, applyResult_playerId, defaultEntry]
  | cons e es ih =>
    simp only [upsertResult]
    by_cases he : e.playerId == r.playerId
    · have hepid : e.playerId = r.playerId := by simpa using he
      simp only [he, if_pos]
      simp only [entryKeys, List.map_cons, List.mem_cons, applyResult_playerId, hepid]
      tauto
    · simp only [he, if_neg, Bool.false_eq_true, not_false_iff]
      simp only [entryKeys, List.map_cons, List.mem_cons] at ih ⊢
      rw [ih]
      tauto

theorem upsertResult_keys_nodup (lbId : Int) (r : QualifierResult)
    (m : List LeaderboardEntry) (h : (entryKeys m).Nodup) :
    (entryKeys (upsertResult lbId r m)).Nodup := by
  induction m with
  | nil => simp [upsertResult, entryKeys]
  | cons e es ih =>
    simp only [entryKeys, List.map_cons, List.nodup_cons] at h
    simp only [upsertResult]
    by_cases he : e.playerId == r.playerId
    · simp only [he, if_pos]
      simp only [entryKeys, List.map_cons, List.nodup_cons, applyResult_playerId]
      exact ⟨h.1, h.2⟩
    · simp only [he, if_neg, Bool.false_eq_true, not_false_iff]
      simp only [entryKeys, List.map_cons, List.nodup_cons]
      refine ⟨fun hmem => ?_, ih h.2⟩
      rcases (upsertResult_keys_mem lbId r es e.playerId).mp hmem with hin | heq
      · exact h.1 hin
      · exact absurd (by simp [heq]) he

/-- Case analysis for membership in an upsert step, assuming distinct keys. -/
theorem upsertResult_mem_cases (lbId : Int) (r : QualifierResult)
    (m : List LeaderboardEntry) (hd : (entryKeys m).Nodup)
    (x : LeaderboardEntry) (hx : x ∈ upsertResult lbId r m) :
    (x ∈ m ∧ x.playerId ≠ r.playerId) ∨
      (∃ e ∈ m, e.playerId = r.playerId ∧ x = applyResult e r) ∨
      ((∀ e ∈ m, e.playerId ≠ r.playerId) ∧ x = applyResult (defaultEntry lbId r.playerId) r) := by
  induction m with
  | nil =>
    simp only [upsertResult, List.mem_singleton] at hx
    exact Or.inr (Or.inr ⟨by simp, hx⟩)
  | cons e es ih =>
    simp only [entryKeys, List.map_cons, List.nodup_cons] at hd
    simp only [upsertResult] at hx
    by_cases he : e.playerId == r.playerId
    · simp only [he, if_pos, List.mem_cons] at hx
      rcases hx with rfl | hx
      · exact Or.inr (Or.inl ⟨e, List.mem_cons_self e es, by simpa using he, rfl⟩)
      · refine Or.inl ⟨List.mem_cons_of_mem e hx, fun hxe => ?_⟩
        have hepid : e.playerId = r.playerId := by simpa using he
        have : x.playerId ∈ entryKeys es := List.mem_map_of_mem _ hx
        rw [hxe, ← hepid] at this
        exact hd.1 this
    · simp only [he, if_neg, Bool.false_eq_true, not_false_iff, List.mem_cons] at hx
      have hepid : e.playerId ≠ r.playerId := by simpa using he
      rcases hx with rfl | hx
      · exact Or.inl ⟨List.mem_cons_self x es, hepid⟩
      · rcases ih hd.2 hx with ⟨hin, hne⟩ | ⟨e₀, he₀, hpe, rfl⟩ | ⟨hall, rfl⟩
        · exact Or.inl ⟨List.mem_cons_of_mem e hin, hne⟩
        · exact Or.inr (Or.inl ⟨e₀, List.mem_cons_of_mem e he₀, hpe, rfl⟩)
        · refine Or.inr (Or.inr ⟨fun e₁ he₁ => ?_, rfl⟩)
          rcases List.mem_cons.mp he₁ with rfl | he₁
          · exact hepid
          · exact hall e₁ he₁

theorem aggregateResults_append (lbId : Int) (rs : List QualifierResult) (r : QualifierResult) :
    aggregateResults lbId (rs ++ [r]) = upsertResult lbId r (aggregateResults lbId rs) := by
  simp [aggregateResults, List.foldl_append]

theorem aggregateResults_keys_nodup (lbId : Int) (rs : List QualifierResult) :
    (entryKeys (aggregateResults lbId rs)).Nodup := by
  induction rs using List.reverseRecOn with
  | nil => simp [aggregateResults, entryKeys]
  | append_singleton rs r ih =>
    rw [aggregateResults_append]
    exact upsertResult_keys_nodup lbId r _ ih

theorem aggregateResults_keys_mem (lbId : Int) (rs : List QualifierResult) (pid : String) :
    pid ∈ entryKeys (aggregateResults lbId rs) ↔ ∃ x ∈ rs, x.playerId = pid := by
  induction rs using List.reverseRecOn with
  | nil => simp [aggregateResults, entryKeys]
  | append_singleton rs r ih =>
    rw [aggregateResults_append, upsertResult_keys_mem lbId r _ pid, ih]
    constructor
    · rintro (⟨x, hx, rfl⟩ | rfl)
      · exact ⟨x, List.mem_append_left _ hx, rfl⟩
      · exact ⟨r, List.mem_append_right _ (List.mem_singleton_self r), rfl⟩
    · rintro ⟨x, hx, rfl⟩
      rcases List.mem_append.mp hx with hx | hx
      · exact Or.inl ⟨x, hx, rfl⟩
      · rw [List.mem_singleton.mp hx]
        exact Or.inr rfl

theorem entryKeys_mem_iff (m : List LeaderboardEntry) (pid : String) :
    pid ∈ entryKeys m ↔ ∃ e ∈ m, e.playerId = pid := by
  simp [entryKeys]

theorem playerResults_append_one (pid : String) (rs : List QualifierResult)
    (r : QualifierResult) :
    playerResults pid (rs ++ [r]) =
      playerResults pid rs ++ if r.playerId == pid then [r] else [] := by
  simp only [playerResults, List.filter_append, List.filter_cons, List.filter_nil]

theorem playerResults_eq_nil (pid : String) (rs : List QualifierResult)
    (h : ∀ x ∈ rs, x.playerId ≠ pid) : playerResults pid rs = [] := by
  simp only [playerResults, List.filter_eq_nil_iff]
  intro x hx
  simpa using h x hx

theorem playerPoints_append_ne (pid : String) (rs : List QualifierResult)
    (r : QualifierResult) (h : r.playerId ≠ pid) :
    playerPoints pid (rs ++ [r]) = playerPoints pid rs := by
  simp [playerPoints, playerResults_append_one, h]

theorem playerPoints_append_eq (pid : String) (rs : List QualifierResult)
    (r : QualifierResult) (h : r.playerId = pid) :
    playerPoints pid (rs ++ [r]) = playerPoints pid rs + getPointsByResult r := by
  simp [playerPoints, playerResults_append_one, h]

theorem playerQualified_append_ne (pid : String) (rs : List QualifierResult)
    (r : QualifierResult) (h : r.playerId ≠ pid) :
    playerQualified pid (rs ++ [r]) = playerQualified pid rs := by
  simp [playerQualified, playerResults_append_one, h]

theorem playerQualified_append_eq (pid : String) (rs : List QualifierResult)
    (r : QualifierResult) (h : r.playerId = pid) :
    playerQualified pid (rs ++ [r]) = (playerQualified pid rs || isQualified r) := by
  simp [playerQualified, playerResults_append_one, h]

theorem applyResult_points (e : LeaderboardEntry) (r : QualifierResult) :
    (applyResult e r).points = e.points + getPointsByResult r := rfl

theorem applyResult_qualified (e : LeaderboardEntry) (r : QualifierResult) :
    (applyResult e r).qualified = (e.qualified || isQualified r) := by
  cases h : isQualified r <;> simp [applyResult, h]

theorem applyResult_leaderboardId (e : LeaderboardEntry) (r : QualifierResult) :
    (applyResult e r).leaderboardId = e.leaderboardId := rfl

theorem applyResult_position (e : LeaderboardEntry) (r : QualifierResult) :
    (applyResult e r).position = e.position := rfl

theorem aggregateResults_canonical (lbId : Int) (rs : List QualifierResult) :
    ∀ e ∈ aggregateResults lbId rs, canonicalEntry lbId rs e := by
  induction rs using List.reverseRecOn with
  | nil => simp [aggregateResults]
  | append_singleton rs r ih =>
    intro x hx
    rw [aggregateResults_append] at hx
    rcases upsertResult_mem_cases lbId r _ (aggregateResults_keys_nodup lbId rs) x hx with
      ⟨hin, hne⟩ | ⟨e, he, hpe, rfl⟩ | ⟨hall, rfl⟩
    · obtain ⟨h1, h2, h3, h4⟩ := ih x hin
      exact ⟨by rw [h1, playerPoints_append_ne _ _ _ (fun h => hne h.symm)],
        by rw [h2, playerQualified_append_ne _ _ _ (fun h => hne h.symm)], h3, h4⟩
    · obtain ⟨h1, h2, h3, h4⟩ := ih e he
      have hpid : (applyResult e r).playerId = e.playerId := rfl
      refine ⟨?_, ?_, h3, h4⟩
      · rw [hpid, applyResult_points, h1, playerPoints_append_eq e.playerId rs r hpe.symm]
      · rw [hpid, applyResult_qualified, h2, playerQualified_append_eq e.playerId rs r hpe.symm]
    · have hnores : ∀ x₀ ∈ rs, x₀.playerId ≠ r.playerId := by
        intro x₀ hx₀ heq
        have hk : r.playerId ∈ entryKeys (aggregateResults lbId rs) :=
          (aggregateResults_keys_mem lbId rs r.playerId).mpr ⟨x₀, hx₀, heq⟩
        obtain ⟨e₀, he₀, hpe₀⟩ := (entryKeys_mem_iff _ _).mp hk
        exact hall e₀ he₀ hpe₀
      have hpid : (applyResult (defaultEntry lbId r.playerId) r).playerId = r.playerId := rfl
      have hzero : playerResults r.playerId rs = [] := playerResults_eq_nil _ _ hnores
      refine ⟨?_, ?_, rfl, rfl⟩
      · rw [hpid, applyResult_points, playerPoints_append_eq _ _ _ rfl]
        simp [defaultEntry, playerPoints, hzero]
      · rw [hpid, applyResult_qualified, playerQualified_append_eq _ _ _ rfl]
        simp [defaultEntry, playerQualified, hzero]

theorem insertDesc_perm (e : LeaderboardEntry) (l : List LeaderboardEntry) :
    (insertDesc e l).Perm (e :: l) := by
  induction l with
  | nil => exact List.Perm.refl _
  | cons x xs ih =>
    simp only [insertDesc]
    split_ifs
    · exact List.Perm.refl _
    · exact (ih.cons x).trans (List.Perm.swap e x xs)

theorem sortDesc_perm (l : List LeaderboardEntry) : (sortDesc l).Perm l := by
  induction l with
  | nil => exact List.Perm.refl _
  | cons e es ih => exact (insertDesc_perm e (sortDesc es)).trans (ih.cons e)

theorem insertDesc_sorted (e : LeaderboardEntry) (l : List LeaderboardEntry)
    (h : l.Pairwise PointsDesc) : (insertDesc e l).Pairwise PointsDesc := by
  induction l with
  | nil => simp [insertDesc]
  | cons x xs ih =>
    rcases List.pairwise_cons.mp h with ⟨hx, hxs⟩
    simp only [insertDesc]
    split_ifs with hge
    · refine List.pairwise_cons.mpr ⟨?_, h⟩
      intro y hy
      rcases List.mem_cons.mp hy with rfl | hy
      · exact hge
      · exact le_trans (hx y hy) hge
    · refine List.pairwise_cons.mpr ⟨?_, ih hxs⟩
      intro y hy
      rcases List.mem_cons.mp ((insertDesc_perm e xs).mem_iff.mp hy) with rfl | hy
      · exact le_of_not_le hge
      · exact hx y hy

theorem sortDesc_sorted (l : List LeaderboardEntry) : (sortDesc l).Pairwise PointsDesc := by
  induction l with
  | nil => exact List.Pairwise.nil
  | cons e es ih => exact insertDesc_sorted e (sortDesc es) ih

theorem assignRanks_map_core (cr : Int) (pa : Option Int) (rc : Int)
    (l : List LeaderboardEntry) :
    (assignRanks cr pa rc l).map entryCore = l.map entryCore := by
  induction l generalizing cr pa rc with
  | nil => rfl
  | cons e es ih =>
    simp only [assignRanks]
    split_ifs <;> simp only [List.map_cons] <;> exact congrArg _ (ih _ _ _)

theorem assignRanks_keys (cr : Int) (pa : Option Int) (rc : Int)
    (l : List LeaderboardEntry) :
    entryKeys (assignRanks cr pa rc l) = entryKeys l := by
  have hcore := assignRanks_map_core cr pa rc l
  have hkeys : ∀ m : List LeaderboardEntry,
      entryKeys m = (m.map entryCore).map Prod.fst := by
    intro m
    rw [List.map_map]
    rfl
  rw [hkeys, hkeys, hcore]

theorem assignRanks_mem_core (cr : Int) (pa : Option Int) (rc : Int)
    (l : List LeaderboardEntry) (x : LeaderboardEntry)
    (hx : x ∈ assignRanks cr pa rc l) : ∃ e ∈ l, entryCore x = entryCore e := by
  have hmem : entryCore x ∈ (assignRanks cr pa rc l).map entryCore :=
    List.mem_map_of_mem entryCore hx
  rw [assignRanks_map_core] at hmem
  obtain ⟨e, he, heq⟩ := List.mem_map.mp hmem
  exact ⟨e, he, heq.symm⟩

theorem entryCore_eq_iff (x e : LeaderboardEntry) :
    entryCore x = entryCore e ↔
      x.playerId = e.playerId ∧ x.points = e.points ∧
        x.qualified = e.qualified ∧ x.leaderboardId = e.leaderboardId := by
  simp [entryCore]

/-- Membership transfer from the final leaderboard back to the
accumulator: any output entry agrees with an accumulator entry on
everything except the rank. -/
theorem computeLeaderboard_mem_core (lbId : Int) (rs : List QualifierResult)
    (x : LeaderboardEntry) (hx : x ∈ computeLeaderboard lbId rs) :
    ∃ e ∈ aggregateResults lbId rs, entryCore x = entryCore e := by
  obtain ⟨e, he, heq⟩ := assignRanks_mem_core 1 none 0 _ x hx
  exact ⟨e, (sortDesc_perm (aggregateResults lbId rs)).mem_iff.mp he, heq⟩

theorem assignRanks_pos_lower (cr : Int) (pa : Option Int) (rc : Int)
    (l : List LeaderboardEntry) (hrc : 0 ≤ rc) :
    ∀ x ∈ assignRanks cr pa rc l, cr ≤ x.position := by
  induction l generalizing cr pa rc with
  | nil => simp [assignRanks]
  | cons e es ih =>
    intro x hx
    simp only [assignRanks] at hx
    split_ifs at hx with hq hne
    · rcases List.mem_cons.mp hx with rfl | hx
      · exact le_refl _
      · exact ih cr (some e.points) (rc + 1) (by omega) x hx
    · rcases List.mem_cons.mp hx with rfl | hx
      · show cr ≤ cr + rc
        omega
      · have := ih (cr + rc) (some e.points) 1 (by omega) x hx
        omega
    · rcases List.mem_cons.mp hx with rfl | hx
      · exact le_refl _
      · exact ih cr (some e.points) (rc + 1) (by omega) x hx

theorem assignRanks_pairwise (cr : Int) (pa : Option Int) (rc : Int)
    (l : List LeaderboardEntry) (hrc : 0 ≤ rc) :
    (assignRanks cr pa rc l).Pairwise (fun a b => a.position ≤ b.position) := by
  induction l generalizing cr pa rc with
  | nil => simp [assignRanks]
  | cons e es ih =>
    simp only [assignRanks]
    split_ifs with hq hne
    · refine List.pairwise_cons.mpr ⟨fun y hy => ?_, ih cr (some e.points) (rc + 1) (by omega)⟩
      exact assignRanks_pos_lower cr (some e.points) (rc + 1) es (by omega) y hy
    · refine List.pairwise_cons.mpr ⟨fun y hy => ?_, ih (cr + rc) (some e.points) 1 (by omega)⟩
      exact assignRanks_pos_lower (cr + rc) (some e.points) 1 es (by omega) y hy
    · refine List.pairwise_cons.mpr ⟨fun y hy => ?_, ih cr (some e.points) (rc + 1) (by omega)⟩
      exact assignRanks_pos_lower cr (some e.points) (rc + 1) es (by omega) y hy

/-- Claim C9: in every aggregation output, ranks are non-decreasing along
the points-descending sequence (adjacent entries in order). -/
theorem claim_C9_rank_monotone (lbId : Int) (rs : List QualifierResult) :
    (computeLeaderboard lbId rs).Chain' (fun a b => a.position ≤ b.position) :=
  (assignRanks_pairwise 1 none 0 (sortDesc (aggregateResults lbId rs)) (by omega)).chain'

theorem rankStep_prev (s : Int × Option Int × Int) (e : LeaderboardEntry) :
    (rankStep s e).2.1 = some e.points := by
  obtain ⟨cr, pa, rc⟩ := s
  simp only [rankStep]
  split_ifs <;> rfl

theorem assignRanks_cons_step (cr : Int) (pa : Option Int) (rc : Int)
    (e : LeaderboardEntry) (es : List LeaderboardEntry) :
    assignRanks cr pa rc (e :: es) =
      { e with position := if e.qualified then cr
          else if pa ≠ some e.points then cr + rc else cr } ::
        assignRanks (rankStep (cr, pa, rc) e).1 (rankStep (cr, pa, rc) e).2.1
          (rankStep (cr, pa, rc) e).2.2 es := by
  simp only [assignRanks, rankStep]
  split_ifs <;> rfl

theorem assignRanks_append (cr : Int) (pa : Option Int) (rc : Int)
    (xs ys : List LeaderboardEntry) :
    assignRanks cr pa rc (xs ++ ys) =
      assignRanks cr pa rc xs ++
        assignRanks (xs.foldl rankStep (cr, pa, rc)).1
          (xs.foldl rankStep (cr, pa, rc)).2.1
          (xs.foldl rankStep (cr, pa, rc)).2.2 ys := by
  induction xs generalizing cr pa rc with
  | nil => rfl
  | cons e es ih =>
    rw [List.cons_append, assignRanks_cons_step, assignRanks_cons_step, List.foldl_cons]
    rw [List.cons_append]
    congr 1
    exact ih _ _ _

theorem prevAfter_cons_cons (pa : Option Int) (e f : LeaderboardEntry)
    (es : List LeaderboardEntry) :
    prevAfter pa (e :: f :: es) = prevAfter pa (f :: es) := by
  simp [prevAfter, List.getLast?_cons_cons]

theorem prevAfter_start_irrel (pa pa' : Option Int) (f : LeaderboardEntry)
    (es : List LeaderboardEntry) :
    prevAfter pa (f :: es) = prevAfter pa' (f :: es) := by
  induction es generalizing f with
  | nil => simp [prevAfter, List.getLast?_singleton]
  | cons g es' ih => rw [prevAfter_cons_cons, prevAfter_cons_cons, ih]

theorem rankState_prev (cr : Int) (pa : Option Int) (rc : Int)
    (xs : List LeaderboardEntry) :
    (xs.foldl rankStep (cr, pa, rc)).2.1 = prevAfter pa xs := by
  induction xs generalizing cr pa rc with
  | nil => rfl
  | cons e es ih =>
    rw [List.foldl_cons]
    rcases hs : rankStep (cr, pa, rc) e with ⟨cr1, pa1, rc1⟩
    have hpa1 : pa1 = some e.points := by
      have := rankStep_prev (cr, pa, rc) e
      rw [hs] at this
      exact this
    cases es with
    | nil =>
      simp only [List.foldl_nil]
      show pa1 = prevAfter pa [e]
      rw [hpa1]
      simp [prevAfter, List.getLast?_singleton]
    | cons f es' =>
      rw [ih cr1 pa1 rc1, prevAfter_cons_cons]
      exact prevAfter_start_irrel pa1 pa f es'

/-- Ranking the tie block: from any state whose previous points differ
from the block's points, two equal-point non-qualified entries get the
same rank and the following distinct-point non-qualified entry gets that
rank plus 2. -/
theorem assignRanks_tie (cr : Int) (pa : Option Int) (rc : Int)
    (a b c : LeaderboardEntry) (ys : List LeaderboardEntry)
    (ha : a.qualified = false) (hb : b.qualified = false) (hc : c.qualified = false)
    (hpa : pa ≠ some a.points) (hab : a.points = b.points) (hbc : b.points ≠ c.points) :
    assignRanks cr pa rc (a :: b :: c :: ys) =
      { a with position := cr + rc } :: { b with position := cr + rc } ::
        { c with position := cr + rc + 2 } ::
          assignRanks (cr + rc + 2) (some c.points) 1 ys := by
  have hab' : some a.points = some b.points := by rw [hab]
  have hbc' : some b.points ≠ some c.points := by simpa using hbc
  rw [assignRanks_cons_step]
  simp only [ha, Bool.false_eq_true, if_false, if_pos hpa, rankStep, if_neg (by simp [ha] :
    ¬a.qualified = true), if_pos hpa]
  rw [assignRanks_cons_step]
  simp only [hb, Bool.false_eq_true, if_false, hab', ne_eq, not_not, if_neg (by simp :
    ¬¬some b.points = some b.points), rankStep, if_neg (by simp [hb] : ¬b.qualified = true)]
  rw [assignRanks_cons_step]
  simp [rankStep, hc, hbc]

theorem specRankPassGo_eq (cr rc : Int) (pa : Option Int) (l : List LeaderboardEntry) :
    specRankPassGo cr rc pa l = assignRanks cr pa rc l := by
  induction l generalizing cr rc pa with
  | nil => rfl
  | cons e es ih =>
    simp only [specRankPassGo, assignRanks]
    by_cases hq : e.qualified
    · simp [hq, ih]
    · by_cases hne : pa = some e.points
      · simp [hq, hne, ih]
      · have hne' : some e.points ≠ pa := fun h => hne h.symm
        simp [hq, hne, hne', ih]

/-- Claim C1: the aggregator sorts the per-player entries by points
descending (the ranked sequence is a points-descending permutation of
the accumulator entries) and assigns ranks in a single pass exactly per
the stated rule (`specRankPass`, transcribed from the spec's rule on
currentRank / rankCount / previousPoints); in particular, in the tie
scenario — no qualified entries, two adjacent equal-point entries
forming their own tie block, then a distinct-point entry — the two
share a rank ρ and the next entry gets ρ + 2. -/
theorem claim_C1_sort_and_rank_rule (lbId : Int) (rs : List QualifierResult) :
    computeLeaderboard lbId rs = specRankPass (sortDesc (aggregateResults lbId rs)) ∧
      (sortDesc (aggregateResults lbId rs)).Pairwise PointsDesc ∧
      (sortDesc (aggregateResults lbId rs)).Perm (aggregateResults lbId rs) ∧
      ∀ xs a b c ys,
        sortDesc (aggregateResults lbId rs) = xs ++ a :: b :: c :: ys →
        (∀ e ∈ aggregateResults lbId rs, e.qualified = false) →
        (∀ x ∈ xs.getLast?, x.points ≠ a.points) →
        a.points = b.points → b.points ≠ c.points →
        ∃ ρ rest, computeLeaderboard lbId rs =
          assignRanks 1 none 0 xs ++ { a with position := ρ } ::
            { b with position := ρ } :: { c with position := ρ + 2 } :: rest := by
  refine ⟨(specRankPassGo_eq 1 0 none _).symm, sortDesc_sorted _, sortDesc_perm _, ?_⟩
  intro xs a b c ys hdec hnq hlast hab hbc
  have hmem : ∀ x : LeaderboardEntry,
      x ∈ sortDesc (aggregateResults lbId rs) → x.qualified = false :=
    fun x hx => hnq x ((sortDesc_perm _).mem_iff.mp hx)
  have ha : a.qualified = false := hmem a (by rw [hdec]; simp)
  have hb : b.qualified = false := hmem b (by rw [hdec]; simp)
  have hc : c.qualified = false := hmem c (by rw [hdec]; simp)
  rcases hs : xs.foldl rankStep (1, (none : Option Int), 0) with ⟨cr1, pa1, rc1⟩
  have hpa1 : pa1 = prevAfter none xs := by
    have hrp := rankState_prev 1 none 0 xs
    rw [hs] at hrp
    exact hrp
  have hpane : pa1 ≠ some a.points := by
    rw [hpa1]
    cases hgl : xs.getLast? with
    | none => simp [prevAfter, hgl]
    | some x =>
      have hxa : x.points ≠ a.points := hlast x (Option.mem_def.mpr hgl)
      simp only [prevAfter, hgl, ne_eq, Option.some.injEq]
      exact hxa
  refine ⟨cr1 + rc1, assignRanks (cr1 + rc1 + 2) (some c.points) 1 ys, ?_⟩
  rw [computeLeaderboard, hdec, assignRanks_append, hs]
  dsimp only
  rw [assignRanks_tie cr1 pa1 rc1 a b c ys ha hb hc hpane hab hbc]

theorem prevAfter_cons (pa : Option Int) (e : LeaderboardEntry)
    (es : List LeaderboardEntry) :
    prevAfter pa (e :: es) = prevAfter (some e.points) es := by
  cases es with
  | nil => simp [prevAfter, List.getLast?_singleton]
  | cons f es' =>
    rw [prevAfter_cons_cons]
    exact prevAfter_start_irrel pa (some e.points) f es'

theorem assignRanks_all_qualified (cr : Int) (pa : Option Int) (rc : Int)
    (qs : List LeaderboardEntry) (h : ∀ e ∈ qs, e.qualified = true) :
    assignRanks cr pa rc qs = qs.map (fun e => { e with position := cr }) ∧
      qs.foldl rankStep (cr, pa, rc) = (cr, prevAfter pa qs, rc + (qs.length : Int)) := by
  induction qs generalizing pa rc with
  | nil => exact ⟨rfl, by simp [prevAfter]⟩
  | cons e es ih =>
    have he : e.qualified = true := h e (List.mem_cons_self e es)
    have hes : ∀ x ∈ es, x.qualified = true := fun x hx => h x (List.mem_cons_of_mem e hx)
    obtain ⟨ih1, ih2⟩ := ih (some e.points) (rc + 1) hes
    constructor
    · rw [assignRanks_cons_step]
      simp only [he, if_pos, rankStep, List.map_cons]
      rw [ih1]
    · rw [List.foldl_cons]
      simp only [rankStep, he, if_pos]
      rw [ih2, prevAfter_cons]
      have hlen : rc + 1 + (es.length : Int) = rc + (((e :: es).length : Nat) : Int) := by
        simp only [List.length_cons]
        push_cast
        ring
      rw [hlen]

/-- A points-descending sorted list in which every qualified entry
strictly out-points every non-qualified one splits into the qualified
prefix followed by the non-qualified suffix. -/
theorem sorted_split_qualified (l : List LeaderboardEntry)
    (hsort : l.Pairwise PointsDesc)
    (hsep : ∀ x ∈ l, ∀ y ∈ l, x.qualified = true → y.qualified = false →
      y.points < x.points) :
    ∃ qs ns, l = qs ++ ns ∧ (∀ e ∈ qs, e.qualified = true) ∧
      ∀ e ∈ ns, e.qualified = false := by
  induction l with
  | nil => exact ⟨[], [], rfl, by simp, by simp⟩
  | cons e l' ih =>
    rcases List.pairwise_cons.mp hsort with ⟨hhead, htail⟩
    cases hq : e.qualified with
    | true =>
      obtain ⟨qs, ns, hdec, hqs, hns⟩ := ih htail
        (fun x hx y hy => hsep x (List.mem_cons_of_mem e hx) y (List.mem_cons_of_mem e hy))
      refine ⟨e :: qs, ns, by rw [List.cons_append, hdec], ?_, hns⟩
      intro x hx
      rcases List.mem_cons.mp hx with rfl | hx
      · exact hq
      · exact hqs x hx
    | false =>
      refine ⟨[], e :: l', rfl, by simp, ?_⟩
      intro x hx
      rcases List.mem_cons.mp hx with rfl | hx
      · exact hq
      · cases hqx : x.qualified with
        | false => rfl
        | true =>
          have hlt := hsep x (List.mem_cons_of_mem e hx) e (List.mem_cons_self e l') hqx hq
          have hle := hhead x hx
          exact absurd hle (by simp only [PointsDesc]; omega)

/-- Witness for C1's tie scenario at a concrete input: "P1" and "P2"
both reach 7500 via the threshold path, "P3" scores 100, nobody
qualifies; the shared rank ρ is 1 and "P3" gets ρ + 2 = 3. -/
theorem claim_C1_sort_and_rank_rule_witness :
    ∃ ρ rest,
      computeLeaderboard 7 [(⟨"P1", 9, 7000, 1, 1⟩ : QualifierResult),
          ⟨"P2", 8, 7001, 1, 1⟩, ⟨"P3", 10, 100, 1, 1⟩] =
        assignRanks 1 none 0 [] ++
          { (⟨"P1", 7500, false, 7, 0⟩ : LeaderboardEntry) with position := ρ } ::
            { (⟨"P2", 7500, false, 7, 0⟩ : LeaderboardEntry) with position := ρ } ::
              { (⟨"P3", 100, false, 7, 0⟩ : LeaderboardEntry) with position := ρ + 2 } ::
                rest :=
  (claim_C1_sort_and_rank_rule 7 [⟨"P1", 9, 7000, 1, 1⟩, ⟨"P2", 8, 7001, 1, 1⟩,
      ⟨"P3", 10, 100, 1, 1⟩]).2.2.2
    [] ⟨"P1", 7500, false, 7, 0⟩ ⟨"P2", 7500, false, 7, 0⟩ ⟨"P3", 100, false, 7, 0⟩ []
    (by decide) (by decide) (by decide) (by decide) (by decide)

/-- Counterexample to claim C2 as stated: on `cexResults` the qualified
player "c" is sorted below two higher-scoring non-qualified players and
receives rank 2, so not all qualified entries receive rank 1. -/
theorem claim_C2_counterexample :
    ¬ ∀ e ∈ computeLeaderboard 1 cexResults, e.qualified = true → e.position = 1 := by
  decide

/-- Claim C2 (amended): when every qualified entry of the accumulator
strictly out-points every non-qualified one — in particular whenever
qualified entries occupy a strict-points prefix of the sorted order —
the output splits as qualified prefix ++ non-qualified suffix, all
qualified entries receive rank 1, and the first non-qualified entry (if
any) receives rank (count of qualified entries) + 1; with no qualified
entries this makes the first entry's rank 1. -/
theorem claim_C2_amended_qualified_block (lbId : Int) (rs : List QualifierResult)
    (hsep : ∀ x ∈ aggregateResults lbId rs, ∀ y ∈ aggregateResults lbId rs,
        x.qualified = true → y.qualified = false → y.points < x.points) :
    ∃ qs ns, computeLeaderboard lbId rs = qs ++ ns ∧
      (∀ e ∈ qs, e.qualified = true ∧ e.position = 1) ∧
      (∀ e ∈ ns, e.qualified = false) ∧
      ∀ n ∈ ns.head?, n.position = (qs.length : Int) + 1 := by
  have hperm := sortDesc_perm (aggregateResults lbId rs)
  obtain ⟨qs₀, ns₀, hdec, hqs₀, hns₀⟩ :=
    sorted_split_qualified (sortDesc (aggregateResults lbId rs))
      (sortDesc_sorted (aggregateResults lbId rs))
      (fun x hx y hy => hsep x (hperm.mem_iff.mp hx) y (hperm.mem_iff.mp hy))
  obtain ⟨hranks, hstate⟩ := assignRanks_all_qualified 1 none 0 qs₀ hqs₀
  have hcompute : computeLeaderboard lbId rs =
      qs₀.map (fun e => { e with position := 1 }) ++
        assignRanks 1 (prevAfter none qs₀) (0 + (qs₀.length : Int)) ns₀ := by
    rw [computeLeaderboard, hdec, assignRanks_append, hstate]
    dsimp only
    rw [hranks]
  refine ⟨qs₀.map (fun e => { e with position := 1 }),
    assignRanks 1 (prevAfter none qs₀) (0 + (qs₀.length : Int)) ns₀, hcompute, ?_, ?_, ?_⟩
  · intro e he
    obtain ⟨e₀, he₀, rfl⟩ := List.mem_map.mp he
    exact ⟨hqs₀ e₀ he₀, rfl⟩
  · intro e he
    obtain ⟨e₀, he₀, hcore⟩ := assignRanks_mem_core _ _ _ _ e he
    obtain ⟨-, -, hq, -⟩ := (entryCore_eq_iff e e₀).mp hcore
    rw [hq]
    exact hns₀ e₀ he₀
  · intro n hn
    cases ns₀ with
    | nil => simp [assignRanks] at hn
    | cons n₀ ns₀' =>
      rw [assignRanks_cons_step] at hn
      have hn₀q : n₀.qualified = false := hns₀ n₀ (List.mem_cons_self n₀ ns₀')
      have hne : prevAfter none qs₀ ≠ some n₀.points := by
        cases hgl : qs₀.getLast? with
        | none => simp [prevAfter, hgl]
        | some q =>
          have hqmem : q ∈ qs₀ := List.mem_of_mem_getLast? hgl
          have hq : q.qualified = true := hqs₀ q hqmem
          have hqs : q ∈ sortDesc (aggregateResults lbId rs) := by
            rw [hdec]
            exact List.mem_append_left _ hqmem
          have hn₀s : n₀ ∈ sortDesc (aggregateResults lbId rs) := by
            rw [hdec]
            exact List.mem_append_right _ (List.mem_cons_self n₀ ns₀')
          have hlt := hsep q (hperm.mem_iff.mp hqs) n₀ (hperm.mem_iff.mp hn₀s) hq hn₀q
          simp only [prevAfter, hgl, ne_eq, Option.some.injEq]
          omega
      simp only [List.head?_cons, Option.mem_def, Option.some.injEq] at hn
      rw [← hn]
      simp only [hn₀q, Bool.false_eq_true, if_false, if_pos hne]
      have : (List.map (fun e => { e with position := 1 }) qs₀).length = qs₀.length :=
        List.length_map qs₀ _
      rw [this]
      omega

/-- Witness for the amended C2 at a concrete input with one qualifying
player ("q", 50000) and one non-qualified player ("n", 100). -/
theorem claim_C2_amended_qualified_block_witness :
    ∃ qs ns,
      computeLeaderboard 1 [(⟨"q", 1, 0, 1, 1⟩ : QualifierResult),
          (⟨"n", 10, 100, 1, 1⟩ : QualifierResult)] = qs ++ ns ∧
        (∀ e ∈ qs, e.qualified = true ∧ e.position = 1) ∧
        (∀ e ∈ ns, e.qualified = false) ∧
        ∀ n ∈ ns.head?, n.position = (qs.length : Int) + 1 :=
  claim_C2_amended_qualified_block 1 _ (by decide)

/-- Every stored entry carries the id of the cup's leaderboard. -/
theorem storedEntries_leaderboardId (lbId : Int) (rs : List QualifierResult) :
    ∀ e ∈ storedEntries lbId rs, e.leaderboardId = lbId := by
  intro e he
  simp only [storedEntries] at he
  obtain ⟨e₀, he₀, heq⟩ := List.mem_map.mp he
  cases hf : (computeLeaderboard lbId rs).find? (fun x => x.playerId == e₀.playerId) with
  | none =>
    rw [hf] at heq
    obtain ⟨-, -, hlb, -⟩ := aggregateResults_canonical lbId rs e₀ he₀
    rw [← heq]
    exact hlb
  | some x =>
    rw [hf] at heq
    have hx : x ∈ computeLeaderboard lbId rs := List.mem_of_find?_eq_some hf
    obtain ⟨e₁, he₁, hcore⟩ := computeLeaderboard_mem_core lbId rs x hx
    obtain ⟨-, -, -, hlbx⟩ := (entryCore_eq_iff x e₁).mp hcore
    obtain ⟨-, -, hlb₁, -⟩ := aggregateResults_canonical lbId rs e₁ he₁
    rw [← heq, hlbx]
    exact hlb₁

theorem filter_idem (p : LeaderboardEntry → Bool) (l : List LeaderboardEntry) :
    (l.filter p).filter p = l.filter p := by
  induction l with
  | nil => rfl
  | cons e es ih => cases h : p e <;> simp [List.filter_cons, h, ih]

/-- The success branch of `updateLeaderboard`: entries of the cup's
leaderboard are deleted and the recomputed entries appended. -/
theorem updateLeaderboard_success (cupId : Int) (db : Database) (cup : Cup)
    (lb : Leaderboard)
    (hfind : db.cups.find? (fun c => c.id == cupId) = some cup)
    (hlb : cup.leaderboard = some lb) :
    updateLeaderboard cupId db = ({ db with
      leaderboardEntries :=
        db.leaderboardEntries.filter (fun e => !(e.leaderboardId == lb.id)) ++
          storedEntries lb.id (resultsOfCup db cup.id) }, none) := by
  simp only [updateLeaderboard, hfind, hlb]

theorem resultsOfCup_entries_irrel (db : Database) (es : List LeaderboardEntry)
    (cid : Int) :
    resultsOfCup { db with leaderboardEntries := es } cid = resultsOfCup db cid := rfl

theorem database_entries_update (db : Database) (es : List LeaderboardEntry) :
    ({ db with leaderboardEntries := es } : Database).leaderboardEntries = es := rfl

theorem database_update_update (db : Database) (es es' : List LeaderboardEntry) :
    ({ ({ db with leaderboardEntries := es } : Database) with
      leaderboardEntries := es' } : Database) =
      { db with leaderboardEntries := es' } := rfl

/-- Claim C7: when the cup does not exist, or exists without a
leaderboard record, `updateLeaderboard` throws and performs no
leaderboard write — the stored state is returned unchanged. -/
theorem claim_C7_missing_cup_no_write (cupId : Int) (db : Database)
    (h : db.cups.find? (fun c => c.id == cupId) = none ∨
      ∃ cup, db.cups.find? (fun c => c.id == cupId) = some cup ∧ cup.leaderboard = none) :
    ∃ msg, updateLeaderboard cupId db = (db, some msg) := by
  rcases h with h | ⟨cup, hcup, hlb⟩
  · exact ⟨"No Cup with id " ++ toString cupId ++ ".", by simp [updateLeaderboard, h]⟩
  · exact ⟨"Cup has no leaderboard! YEK?", by simp [updateLeaderboard, hcup, hlb]⟩

/-- Witness for C7: the empty store has no cup 1, so the update fails
and returns the store unchanged. -/
theorem claim_C7_missing_cup_no_write_witness :
    ∃ msg, updateLeaderboard 1 (⟨[], [], [], []⟩ : Database) =
      ((⟨[], [], [], []⟩ : Database), some msg) :=
  claim_C7_missing_cup_no_write 1 ⟨[], [], [], []⟩ (Or.inl (by decide))

/-- Claim C8: aggregation is idempotent and deterministic — a second run
of `updateLeaderboard` on the state a successful run produced (raw
results unchanged) succeeds and leaves the state exactly as it was:
same players, points, qualified flags and ranks. -/
theorem claim_C8_idempotent (cupId : Int) (db db₁ : Database)
    (h : updateLeaderboard cupId db = (db₁, none)) :
    updateLeaderboard cupId db₁ = (db₁, none) := by
  cases hfind : db.cups.find? (fun c => c.id == cupId) with
  | none => simp [updateLeaderboard, hfind] at h
  | some cup =>
    cases hlb : cup.leaderboard with
    | none => simp [updateLeaderboard, hfind, hlb] at h
    | some lb =>
      rw [updateLeaderboard_success cupId db cup lb hfind hlb] at h
      have h1 := congrArg Prod.fst h
      simp only at h1
      subst h1
      have hnil : (storedEntries lb.id (resultsOfCup db cup.id)).filter
          (fun e => !(e.leaderboardId == lb.id)) = [] := by
        rw [List.filter_eq_nil_iff]
        intro e he
        have hid := storedEntries_leaderboardId lb.id _ e he
        simp [hid]
      obtain ⟨E, hE⟩ : ∃ E, (db.leaderboardEntries.filter
            (fun e => !(e.leaderboardId == lb.id)) ++
          storedEntries lb.id (resultsOfCup db cup.id)) = E := ⟨_, rfl⟩
      rw [hE]
      rw [updateLeaderboard_success cupId { db with leaderboardEntries := E } cup lb
        hfind hlb]
      rw [resultsOfCup_entries_irrel, database_entries_update, database_update_update]
      rw [← hE, List.filter_append, filter_idem, hnil, List.append_nil]

/-- Witness for C8: a store with cup 1 owning leaderboard 5 and no raw
results; the first run leaves the store unchanged, and so does the
second. -/
theorem claim_C8_idempotent_witness :
    updateLeaderboard 1
        (⟨[⟨1, some ⟨5, 1⟩⟩], [], [], []⟩ : Database) =
      ((⟨[⟨1, some ⟨5, 1⟩⟩], [], [], []⟩ : Database), none) :=
  claim_C8_idempotent 1 ⟨[⟨1, some ⟨5, 1⟩⟩], [], [], []⟩ _ (by decide)

/-- Claim C4: for every raw result, `getPointsByResult` returns exactly
the specified award table (variant A: 50000 for positions 1–3, 15000 for
4, 10000 for 5, else 7500 when raw points ≥ 6969, else the raw points;
variant B: 6500/6000/5500 for positions 1/2/3, else 5000 when raw points
≥ 4500, else the raw points), and for every position ≤ 0 no fixed-bonus
branch is taken: the result is the points-based tier. -/
theorem claim_C4_award_table (r : QualifierResult) :
    getPointsByResult r = specAwardTable r ∧
      (r.position ≤ 0 → getPointsByResult r = pointsTier r) := by
  constructor
  · rfl
  · intro h
    simp only [getPointsByResult, pointsTier, POINT_LIMIT_SERVER_ONE,
      POINT_LIMIT_SERVER_TWO]
    split_ifs <;> first | rfl | omega

/-- Witness for C4 at the concrete result (server 1, position 0, raw
points 100): the hypothesis position ≤ 0 holds and the award is the
points-based tier. -/
theorem claim_C4_award_table_witness :
    getPointsByResult ⟨"p", 0, 100, 1, 1⟩ = specAwardTable ⟨"p", 0, 100, 1, 1⟩ ∧
      getPointsByResult ⟨"p", 0, 100, 1, 1⟩ = pointsTier ⟨"p", 0, 100, 1, 1⟩ :=
  ⟨(claim_C4_award_table ⟨"p", 0, 100, 1, 1⟩).1,
   (claim_C4_award_table ⟨"p", 0, 100, 1, 1⟩).2 (by decide)⟩

/-- Characterization of `isQualified`, shared by several proofs. -/
theorem isQualified_iff (r : QualifierResult) :
    isQualified r = true ↔ r.server = 1 ∧ 1 ≤ r.position ∧ r.position ≤ 3 := by
  simp only [isQualified, Bool.and_eq_true, decide_eq_true_eq, ge_iff_le]
  tauto

/-- Claim C5: `isQualified` returns true iff the result's server is 1
and its position is in [1,3]; in particular server-2 (variant B) results
are never qualifying. -/
theorem claim_C5_qualification (r : QualifierResult) :
    (isQualified r = true ↔ r.server = 1 ∧ 1 ≤ r.position ∧ r.position ≤ 3) ∧
      (r.server = 2 → isQualified r = false) := by
  refine ⟨isQualified_iff r, fun h2 => ?_⟩
  cases hq : isQualified r with
  | false => rfl
  | true => exact absurd ((isQualified_iff r).mp hq).1 (by omega)

/-- Witness for C5 at the concrete result (server 2, position 1): the
hypothesis server = 2 holds and the result is not qualifying. -/
theorem claim_C5_qualification_witness :
    (isQualified ⟨"p", 1, 0, 1, 2⟩ = true ↔
        (⟨"p", 1, 0, 1, 2⟩ : QualifierResult).server = 1 ∧
          1 ≤ (⟨"p", 1, 0, 1, 2⟩ : QualifierResult).position ∧
          (⟨"p", 1, 0, 1, 2⟩ : QualifierResult).position ≤ 3) ∧
      isQualified ⟨"p", 1, 0, 1, 2⟩ = false :=
  ⟨(claim_C5_qualification ⟨"p", 1, 0, 1, 2⟩).1,
   (claim_C5_qualification ⟨"p", 1, 0, 1, 2⟩).2 rfl⟩

/-- Claim C6: a raw result whose server tag is neither 1 nor 2 is scored
as 0 points and is not qualifying, whatever its position and raw points;
both functions are total, so no error is raised on an unrecognized
variant. -/
theorem claim_C6_unrecognized_variant (r : QualifierResult)
    (h1 : r.server ≠ 1) (h2 : r.server ≠ 2) :
    getPointsByResult r = 0 ∧ isQualified r = false := by
  constructor
  · simp only [getPointsByResult]
    split_ifs <;> first | rfl | omega
  · cases hq : isQualified r with
    | false => rfl
    | true => exact absurd ((isQualified_iff r).mp hq).1 h1

/-- Witness for C6 at the concrete result (server 3, position 1, raw
points 99999). -/
theorem claim_C6_unrecognized_variant_witness :
    getPointsByResult ⟨"p", 1, 99999, 1, 3⟩ = 0 ∧
      isQualified ⟨"p", 1, 99999, 1, 3⟩ = false :=
  claim_C6_unrecognized_variant ⟨"p", 1, 99999, 1, 3⟩ (by decide) (by decide)

/-- Claim C3: the aggregator produces exactly one entry per distinct
player with at least one raw result in the cup (and none for players
with zero results); each entry's points are the sum of the awarded
points over that player's results, and its qualified flag is the OR of
`isQualified` over them. -/
theorem claim_C3_grouping (lbId : Int) (rs : List QualifierResult) :
    (∀ pid, (entryKeys (computeLeaderboard lbId rs)).count pid =
        if ∃ r ∈ rs, r.playerId = pid then 1 else 0) ∧
      ∀ e ∈ computeLeaderboard lbId rs,
        e.points = playerPoints e.playerId rs ∧
          e.qualified = playerQualified e.playerId rs := by
  constructor
  · intro pid
    have hperm : (entryKeys (computeLeaderboard lbId rs)).Perm
        (entryKeys (aggregateResults lbId rs)) := by
      rw [computeLeaderboard, assignRanks_keys]
      exact (sortDesc_perm _).map _
    rw [hperm.count_eq]
    by_cases h : ∃ r ∈ rs, r.playerId = pid
    · rw [if_pos h]
      exact List.count_eq_one_of_mem (aggregateResults_keys_nodup lbId rs)
        ((aggregateResults_keys_mem lbId rs pid).mpr h)
    · rw [if_neg h]
      exact List.count_eq_zero.mpr
        (fun hmem => h ((aggregateResults_keys_mem lbId rs pid).mp hmem))
  · intro e he
    obtain ⟨e₀, he₀, heq⟩ := computeLeaderboard_mem_core lbId rs e he
    obtain ⟨hpid, hpts, hqe, _⟩ := (entryCore_eq_iff e e₀).mp heq
    obtain ⟨h1, h2, _, _⟩ := aggregateResults_canonical lbId rs e₀ he₀
    exact ⟨by rw [hpts, h1, hpid], by rw [hqe, h2, hpid]⟩

/-- The awarded points are non-negative whenever the raw points are. -/
theorem getPointsByResult_nonneg (r : QualifierResult) (h : 0 ≤ r.points) :
    0 ≤ getPointsByResult r := by
  simp only [getPointsByResult, POINT_LIMIT_SERVER_ONE, POINT_LIMIT_SERVER_TWO]
  split_ifs <;> omega

/-- A qualifying result is awarded exactly 50000 points. -/
theorem isQualified_points (r : QualifierResult) (h : isQualified r = true) :
    getPointsByResult r = 50000 := by
  obtain ⟨hs, h1, h3⟩ := (isQualified_iff r).mp h
  simp only [getPointsByResult, POINT_LIMIT_SERVER_ONE, POINT_LIMIT_SERVER_TWO]
  split_ifs <;> omega

/-- Claim C10: when every raw result has non-negative raw points, every
qualified entry of the output has total points at least 50000: its
qualifying result contributes exactly 50000 and every other result a
non-negative amount. -/
theorem claim_C10_qualified_floor (lbId : Int) (rs : List QualifierResult)
    (h : ∀ r ∈ rs, 0 ≤ r.points) :
    ∀ e ∈ computeLeaderboard lbId rs, e.qualified = true → 50000 ≤ e.points := by
  intro e he hq
  obtain ⟨e₀, he₀, heq⟩ := computeLeaderboard_mem_core lbId rs e he
  obtain ⟨hpid, hpts, hqe, _⟩ := (entryCore_eq_iff e e₀).mp heq
  obtain ⟨h1, h2, _, _⟩ := aggregateResults_canonical lbId rs e₀ he₀
  rw [hpts, h1]
  have hq₀ : playerQualified e₀.playerId rs = true := by rw [← h2, ← hqe, hq]
  simp only [playerQualified] at hq₀
  obtain ⟨r, hr, hrq⟩ := List.any_eq_true.mp hq₀
  have hmem : getPointsByResult r ∈ (playerResults e₀.playerId rs).map getPointsByResult :=
    List.mem_map_of_mem getPointsByResult hr
  have hnonneg : ∀ x ∈ (playerResults e₀.playerId rs).map getPointsByResult, 0 ≤ x := by
    intro x hx
    obtain ⟨r₁, hr₁, rfl⟩ := List.mem_map.mp hx
    exact getPointsByResult_nonneg r₁ (h r₁ (List.mem_of_mem_filter hr₁))
  have hle := List.single_le_sum hnonneg _ hmem
  rw [isQualified_points r hrq] at hle
  simpa [playerPoints] using hle

/-- Witness for C10 at the concrete input of a single qualifying result
with raw points 0: its qualified entry totals exactly 50000. -/
theorem claim_C10_qualified_floor_witness :
    (∀ r ∈ [(⟨"p", 1, 0, 1, 1⟩ : QualifierResult)], 0 ≤ r.points) ∧
      ∀ e ∈ computeLeaderboard 1 [(⟨"p", 1, 0, 1, 1⟩ : QualifierResult)],
        e.qualified = true → 50000 ≤ e.points :=
  ⟨by decide, claim_C10_qualified_floor 1 _ (by decide)⟩
